import Mathlib

/-!
Verification of the `tclMaster` text-transformation utilities.

Shallow embedding of `src/tclMaster/utilities/TclPreprocessor.py`,
`src/tclMaster/utilities/utilities.py`, and the two batch drivers.
Python strings are modelled as `List Char`; a file's on-disk contents is a
single `List Char`; `splitLines` is `readlines` (text mode, `\n` line
terminators) and `joinLines` is `writelines`.  Regex patterns that the
caller passes in (`after_pattern`, `start_pattern`, `end_pattern`) are
modelled as their per-line match function `List Char → Bool`, i.e. the
result of `pattern.search(line)`; the concrete patterns appearing in the
spec's scenarios ("start", "end", "^end", the empty pattern) are given
their concrete match functions.  The internally built regexes of
`replace_variable_value` and `replace_string_content` are embedded
concretely.
-/

namespace TclMaster

/-- The whitespace class of Python's `\s` and `str.strip()` (ASCII part;
the source files only ever meet ASCII whitespace). -/
def isPySpace (c : Char) : Bool :=
  c = ' ' || c = '\t' || c = '\n' || c = '\r' || c = Char.ofNat 11 || c = Char.ofNat 12

/-- Convert a Lean string literal to the `List Char` model. -/
def strL (s : String) : List Char := s.toList

/-- `file.readlines()` in text mode: split after every newline character,
keeping the terminators; a final fragment without a newline is its own
line; the empty file has no lines. -/
def splitLines : List Char → List (List Char)
  | [] => []
  | c :: cs =>
    if c = '\n' then ['\n'] :: splitLines cs
    else
      match splitLines cs with
      | [] => [[c]]
      | l :: ls => (c :: l) :: ls

theorem splitLines_cons (c : Char) (cs : List Char) :
    splitLines (c :: cs) =
      if c = '\n' then ['\n'] :: splitLines cs
      else
        match splitLines cs with
        | [] => [[c]]
        | l :: ls => (c :: l) :: ls := rfl

/-- `f.writelines(lines)`: concatenation of the lines. -/
def joinLines (ls : List (List Char)) : List Char := ls.flatten

theorem joinLines_cons (l : List Char) (ls : List (List Char)) :
    joinLines (l :: ls) = l ++ joinLines ls := by simp [joinLines]

/-- A single line as produced by `readlines`: nonempty, and any newline
character can only be its last character. -/
def WFline (l : List Char) : Prop := l ≠ [] ∧ '\n' ∉ l.dropLast

/-- A line list as produced by `readlines`: each line well formed and every
line but the last terminated by a newline. -/
def WF : List (List Char) → Prop
  | [] => True
  | [l] => WFline l
  | l :: l' :: ls => WFline l ∧ l.getLast? = some '\n' ∧ WF (l' :: ls)

theorem wf_cons {l l' : List Char} {ls : List (List Char)} :
    WF (l :: l' :: ls) ↔ WFline l ∧ l.getLast? = some '\n' ∧ WF (l' :: ls) := Iff.rfl

theorem dropLast_cons2 {α : Type} (c d : α) (ds : List α) :
    (c :: d :: ds).dropLast = c :: (d :: ds).dropLast := rfl

theorem splitLines_append_of_terminated {l : List Char}
    (hnl : l.getLast? = some '\n') (hint : '\n' ∉ l.dropLast) :
    ∀ t, splitLines (l ++ t) = l :: splitLines t := by
  induction l with
  | nil => simp at hnl
  | cons c cs ih =>
    intro t
    cases cs with
    | nil =>
      simp only [List.getLast?_singleton, Option.some.injEq] at hnl
      subst hnl
      simp [splitLines]
    | cons d ds =>
      have hc : c ≠ '\n' := by
        intro h
        exact hint (by simp [List.dropLast, h])
      have hint' : '\n' ∉ (d :: ds).dropLast := by
        intro h
        exact hint (by simp [List.dropLast, h])
      have hnl' : (d :: ds).getLast? = some '\n' := by
        rwa [List.getLast?_cons_cons] at hnl
      have hrec := ih hnl' hint' t
      rw [List.cons_append, splitLines_cons, if_neg hc, hrec]

theorem splitLines_of_no_newline {l : List Char} (h : '\n' ∉ l) (hne : l ≠ []) :
    splitLines l = [l] := by
  induction l with
  | nil => simp at hne
  | cons c cs ih =>
    have hc : c ≠ '\n' := by intro hc; exact h (by simp [hc])
    have hcs : '\n' ∉ cs := by intro hx; exact h (by simp [hx])
    cases cs with
    | nil => simp [splitLines, hc]
    | cons d ds =>
      have hrec := ih hcs (by simp)
      rw [splitLines_cons, if_neg hc, hrec]

theorem no_newline_of_wfline {l : List Char}
    (hint : '\n' ∉ l.dropLast) (hnl : l.getLast? ≠ some '\n') : '\n' ∉ l := by
  induction l with
  | nil => simp
  | cons c cs ih =>
    cases cs with
    | nil =>
      simp only [List.getLast?_singleton, ne_eq, Option.some.injEq] at hnl
      simp [hnl]
      intro h
      exact hnl h.symm
    | cons d ds =>
      have hc : c ≠ '\n' := by
        intro h
        exact hint (by simp [List.dropLast, h])
      have hint' : '\n' ∉ (d :: ds).dropLast := by
        intro h
        exact hint (by simp [List.dropLast, h])
      have hnl' : (d :: ds).getLast? ≠ some '\n' := by
        rwa [List.getLast?_cons_cons] at hnl
      have hrec := ih hint' hnl'
      intro hmem
      rcases List.mem_cons.1 hmem with h | h
      · exact hc h.symm
      · exact hrec h

theorem splitLines_single {l : List Char} (h : WFline l) : splitLines l = [l] := by
  rcases h with ⟨hne, hint⟩
  by_cases hnl : l.getLast? = some '\n'
  · have := splitLines_append_of_terminated hnl hint []
    simpa [splitLines] using this
  · exact splitLines_of_no_newline (no_newline_of_wfline hint hnl) hne

/-- Writing out well-formed lines and reading them back gives the same lines. -/
theorem splitLines_joinLines {ls : List (List Char)} (h : WF ls) :
    splitLines (joinLines ls) = ls := by
  induction ls with
  | nil => simp [joinLines, splitLines]
  | cons l rest ih =>
    cases rest with
    | nil =>
      rw [joinLines_cons]
      simp only [joinLines, List.flatten_nil, List.append_nil]
      exact splitLines_single h
    | cons l' ls' =>
      rcases h with ⟨hwf, hnl, hrest⟩
      rw [joinLines_cons, splitLines_append_of_terminated hnl hwf.2, ih hrest]

/-- Reading a file and writing the lines straight back reproduces the bytes. -/
theorem joinLines_splitLines (s : List Char) : joinLines (splitLines s) = s := by
  induction s with
  | nil => simp [splitLines, joinLines]
  | cons c cs ih =>
    by_cases hc : c = '\n'
    · subst hc
      rw [splitLines_cons, if_pos rfl, joinLines_cons, ih]
      rfl
    · rw [splitLines_cons, if_neg hc]
      cases h : splitLines cs with
      | nil =>
        have : cs = [] := by
          cases cs with
          | nil => rfl
          | cons d ds =>
            rw [splitLines_cons] at h
            split at h <;> simp_all
            split at h <;> simp_all
        simp [this, joinLines]
      | cons l ls =>
        rw [h, joinLines_cons] at ih
        simp only [joinLines, List.flatten_cons] at ih ⊢
        rw [List.cons_append, ih]

/-- Every line list produced by `readlines` is well formed. -/
theorem wf_splitLines (s : List Char) : WF (splitLines s) := by
  induction s with
  | nil => simp [splitLines, WF]
  | cons c cs ih =>
    by_cases hc : c = '\n'
    · subst hc
      rw [splitLines_cons, if_pos rfl]
      cases h : splitLines cs with
      | nil => simp [WF, WFline]
      | cons l ls =>
        rw [h] at ih
        exact wf_cons.2 ⟨⟨by simp, by simp [List.dropLast]⟩, by simp, ih⟩
    · rw [splitLines_cons, if_neg hc]
      cases h : splitLines cs with
      | nil => simp [WF, WFline, List.dropLast]
      | cons l ls =>
        rw [h] at ih
        cases ls with
        | nil =>
          have hwf : WFline l := ih
          exact ⟨by simp, by
            cases l with
            | nil => exact absurd rfl hwf.1
            | cons d ds =>
              rw [dropLast_cons2]
              intro hmem
              rcases List.mem_cons.1 hmem with h1 | h2
              · exact hc h1.symm
              · exact hwf.2 h2⟩
        | cons l' ls' =>
          rcases wf_cons.1 ih with ⟨hwf, hnl, hrest⟩
          refine wf_cons.2 ⟨⟨by simp, ?_⟩, ?_, hrest⟩
          · cases l with
            | nil => exact absurd rfl hwf.1
            | cons d ds =>
              rw [dropLast_cons2]
              intro hmem
              rcases List.mem_cons.1 hmem with h1 | h2
              · exact hc h1.symm
              · exact hwf.2 h2
          · cases l with
            | nil => exact absurd rfl hwf.1
            | cons d ds => simpa using hnl

/-! ## Pattern matchers

A compiled regex applied to one line with `pattern.search` is modelled as
its match function.  `isSub pat l` is `re.search` for a pattern with no
special characters (a literal): it succeeds iff `pat` occurs as a
contiguous substring of `l`.  `startsWithL pat l` is `re.search` for the
anchored pattern `^pat` with `pat` literal.  `emptyPattern` is `re.search`
with the empty pattern, which matches the empty substring at position 0 of
every string. -/

/-- `re.search` of a literal pattern: substring test. -/
def isSub (pat : List Char) : List Char → Bool
  | [] => pat.isEmpty
  | c :: cs => pat.isPrefixOf (c :: cs) || isSub pat cs

/-- `re.search` of `^pat` with `pat` literal: anchored prefix test. -/
def startsWithL (pat l : List Char) : Bool := pat.isPrefixOf l

/-- `re.search` of the empty pattern: always succeeds. -/
def emptyPattern : List Char → Bool := fun _ => true

/-! ## `TclPreprocessor.inject_line` (TclPreprocessor.py lines 74-111) -/

/-- `content + '\n' if not content.endswith('\n') else content`. -/
def normContent (c : List Char) : List Char :=
  if c.getLast? = some '\n' then c else c ++ ['\n']

/-- The scanning loop of `inject_line`: append each line; after the first
line on which the pattern search succeeds, also append the content and set
the `injected` flag, which suppresses any further insertion. -/
def injGo (p : List Char → Bool) (content : List Char) :
    List (List Char) → Bool → List (List Char) × Bool
  | [], inj => ([], inj)
  | l :: ls, inj =>
    if inj = false ∧ p l then
      let r := injGo p content ls true
      (l :: content :: r.1, r.2)
    else
      let r := injGo p content ls inj
      (l :: r.1, r.2)

/-- `inject_line`: read the file, run the loop, write back only when a
line was injected.  Returns the file's new byte contents and the boolean
result. -/
def inject_line (p : List Char → Bool) (content s : List Char) :
    List Char × Bool :=
  let r := injGo p (normContent content) (splitLines s) false
  (if r.2 then joinLines r.1 else s, r.2)

/-! ## `TclPreprocessor.replace_variable_value` (lines 113-152)

The built regex is `^\s*set\s+{re.escape(var_name)}\s+(.*)`, used with
`pattern.match` (anchored at the start).  Since `s` is not a whitespace
character, `\s*` must consume exactly the maximal whitespace prefix; after
the literal `set`, `\s+` consumes one or more whitespace characters and the
escaped name must follow literally, itself followed by at least one more
whitespace character (`\s+`); `(.*)` always succeeds.  `scanName` tries
every admissible length for the middle `\s+` (backtracking). -/

/-- After the literal `set`: one or more whitespace characters, then the
literal variable name, then at least one further whitespace character. -/
def scanName (name : List Char) : List Char → Bool
  | [] => false
  | c :: cs =>
    if isPySpace c then
      (name.isPrefixOf cs &&
        (match (cs.drop name.length).head? with
         | some d => isPySpace d
         | none => false)) ||
      scanName name cs
    else false

/-- `pattern.match(line)` for `^\s*set\s+{re.escape(var_name)}\s+(.*)`. -/
def matchSetLine (name l : List Char) : Bool :=
  match l.dropWhile isPySpace with
  | 's' :: 'e' :: 't' :: rest => scanName name rest
  | _ => false

/-- `f"set {var_name} {new_value}\n"` (with `new_value` already converted
to its string form). -/
def canonicalSet (name value : List Char) : List Char :=
  strL "set " ++ name ++ [' '] ++ value ++ ['\n']

/-- The line loop of `replace_variable_value`: matching lines are replaced
wholesale by the canonical assignment line; the flag records whether any
line matched. -/
def rvvGo (name value : List Char) : List (List Char) → List (List Char) × Bool
  | [] => ([], false)
  | l :: ls =>
    let r := rvvGo name value ls
    if matchSetLine name l then (canonicalSet name value :: r.1, true)
    else (l :: r.1, r.2)

/-- `replace_variable_value`: read, rewrite matching `set` lines, write
back only when modified. -/
def replace_variable_value (name value s : List Char) : List Char × Bool :=
  let r := rvvGo name value (splitLines s)
  (if r.2 then joinLines r.1 else s, r.2)

/-! ## `TclPreprocessor.comment_out_block` (lines 154-200) -/

/-- `line.strip().startswith("#")`: after removing leading whitespace the
line starts with the comment marker.  (Removing trailing whitespace as
well cannot create or destroy a leading `#`.) -/
def isCommented (l : List Char) : Bool :=
  match l.dropWhile isPySpace with
  | '#' :: _ => true
  | _ => false

/-- Prefix a not-yet-commented line with `"# "`. -/
def applyCmt (l : List Char) : List Char :=
  if isCommented l then l else '#' :: ' ' :: l

/-- 1 for a line that would be newly commented, 0 otherwise. -/
def cmtCount (l : List Char) : Nat := if isCommented l then 0 else 1

/-- The state machine of `comment_out_block`: `inside` is `inside_block`.
A line seen outside the block that matches the start pattern is processed
as part of the block (the source first sets `inside_block = True` and then
tests it, so the line is in the block iff `inside ∨ ps l`); inside the
block an uncommented line is prefixed with `"# "` and counted; the end
pattern is evaluated on the original line text after the current line is
processed. -/
def cobGo (ps pe : List Char → Bool) :
    List (List Char) → Bool → List (List Char) × Nat
  | [], _ => ([], 0)
  | l :: ls, inside =>
    if inside || ps l then
      let r := cobGo ps pe ls (if pe l then false else true)
      (applyCmt l :: r.1, cmtCount l + r.2)
    else
      let r := cobGo ps pe ls false
      (l :: r.1, r.2)

/-- `comment_out_block`: read, run the state machine from outside the
block, write back only when at least one line was newly commented. -/
def comment_out_block (ps pe : List Char → Bool) (s : List Char) :
    List Char × Nat :=
  let r := cobGo ps pe (splitLines s) false
  (if 0 < r.2 then joinLines r.1 else s, r.2)

/-! ## `TclPreprocessor.replace_string_content` (lines 202-237)

`re.subn(re.escape(old_string), new_string, line)` per line.  The pattern
is the escaped `old_string`, hence a literal with zero capture groups;
`new_string` however is processed by `re` as a replacement *template*:
backslash escapes in it are interpreted (`\n` becomes a newline, `\g<0>`
the matched text, `\1` an invalid-group-reference error, `\q` a
bad-escape error, ...).  `parseTemplate` embeds CPython's
`re._parser.parse_template` for a pattern with zero groups; a template
error is raised by the first `re.subn` call, i.e. on the first line. -/

inductive TmplItem : Type
  | lit : Char → TmplItem
  | group0 : TmplItem
deriving DecidableEq

def isOctDigit (c : Char) : Bool := '0' ≤ c ∧ c ≤ '7'

def isAsciiLetter (c : Char) : Bool :=
  ('a' ≤ c ∧ c ≤ 'z') ∨ ('A' ≤ c ∧ c ≤ 'Z')

def octVal (c : Char) : Nat := c.toNat - '0'.toNat

/-- The known letter escapes of a replacement template
(`\a \b \f \n \r \t \v`). -/
def letterEscape (c : Char) : Option Char :=
  if c = 'a' then some (Char.ofNat 7)
  else if c = 'b' then some (Char.ofNat 8)
  else if c = 'f' then some (Char.ofNat 12)
  else if c = 'n' then some '\n'
  else if c = 'r' then some '\r'
  else if c = 't' then some '\t'
  else if c = 'v' then some (Char.ofNat 11)
  else none

/-- `re._parser.parse_template` for a pattern with zero capture groups
(the escaped `old_string`), written with a fuel argument so that it is
structurally recursive (every step consumes at least one input character,
so fuel `length + 1` always suffices; the fuel-exhaustion branch is
unreachable from `parseTemplate`).  Returns the template items or the
raised `re.error` message. -/
def parseTemplateF : Nat → List Char → Except (List Char) (List TmplItem)
  | 0, _ => Except.error (strL "bad escape (end of pattern)")
  | fuel + 1, repl =>
    match repl with
    | [] => Except.ok []
    | '\\' :: rest =>
      match rest with
      | [] => Except.error (strL "bad escape (end of pattern)")
      | 'g' :: rest1 =>
        match rest1 with
        | '<' :: rest2 =>
          let name := rest2.takeWhile (fun c => c ≠ '>')
          match rest2.dropWhile (fun c => c ≠ '>') with
          | '>' :: rest4 =>
            if name.isEmpty then Except.error (strL "missing group name")
            else if name.all (fun c => c.isDigit) then
              if name.all (fun c => c = '0') then
                match parseTemplateF fuel rest4 with
                | Except.ok items => Except.ok (TmplItem.group0 :: items)
                | e => e
              else Except.error (strL "invalid group reference")
            else Except.error (strL "unknown group name")
          | _ => Except.error (strL "missing >, unterminated name")
        | _ => Except.error (strL "missing <")
      | '0' :: rest1 =>
        -- octal escape: \0 plus up to two further octal digits
        match rest1 with
        | d1 :: d2 :: rest2 =>
          if isOctDigit d1 && isOctDigit d2 then
            match parseTemplateF fuel rest2 with
            | Except.ok items =>
              Except.ok (TmplItem.lit (Char.ofNat (octVal d1 * 8 + octVal d2)) :: items)
            | e => e
          else if isOctDigit d1 then
            match parseTemplateF fuel (d2 :: rest2) with
            | Except.ok items => Except.ok (TmplItem.lit (Char.ofNat (octVal d1)) :: items)
            | e => e
          else
            match parseTemplateF fuel (d1 :: d2 :: rest2) with
            | Except.ok items => Except.ok (TmplItem.lit (Char.ofNat 0) :: items)
            | e => e
        | [d1] =>
          if isOctDigit d1 then Except.ok [TmplItem.lit (Char.ofNat (octVal d1))]
          else
            match parseTemplateF fuel [d1] with
            | Except.ok items => Except.ok (TmplItem.lit (Char.ofNat 0) :: items)
            | e => e
        | [] => Except.ok [TmplItem.lit (Char.ofNat 0)]
      | '\\' :: rest1 =>
        -- the escape of the backslash itself yields one literal backslash
        match parseTemplateF fuel rest1 with
        | Except.ok items => Except.ok (TmplItem.lit '\\' :: items)
        | e => e
      | c :: rest1 =>
        if c.isDigit then
          -- \1..\9: group reference unless a full three-digit octal escape
          match rest1 with
          | d2 :: d3 :: rest2 =>
            if d2.isDigit && isOctDigit c && isOctDigit d2 && isOctDigit d3 then
              let v := octVal c * 64 + octVal d2 * 8 + octVal d3
              if v > 255 then Except.error (strL "octal escape value outside of range")
              else
                match parseTemplateF fuel rest2 with
                | Except.ok items => Except.ok (TmplItem.lit (Char.ofNat v) :: items)
                | e => e
            else Except.error (strL "invalid group reference")
          | _ => Except.error (strL "invalid group reference")
        else if isAsciiLetter c then
          match letterEscape c with
          | some e =>
            match parseTemplateF fuel rest1 with
            | Except.ok items => Except.ok (TmplItem.lit e :: items)
            | e' => e'
          | none => Except.error (strL "bad escape")
        else
          -- unknown non-alphanumeric escape: kept verbatim, backslash included
          match parseTemplateF fuel rest1 with
          | Except.ok items => Except.ok (TmplItem.lit '\\' :: TmplItem.lit c :: items)
          | e => e
    | c :: rest =>
      match parseTemplateF fuel rest with
      | Except.ok items => Except.ok (TmplItem.lit c :: items)
      | e => e

/-- `re._parser.parse_template` of `new_string`, zero capture groups. -/
def parseTemplate (repl : List Char) : Except (List Char) (List TmplItem) :=
  parseTemplateF (repl.length + 1) repl

/-- Expand a parsed template at a match of the literal pattern `old`
(group 0 is always exactly `old`). -/
def expandTemplate (old : List Char) : List TmplItem → List Char
  | [] => []
  | TmplItem.lit c :: items => c :: expandTemplate old items
  | TmplItem.group0 :: items => old ++ expandTemplate old items

/-- The scanning core of `re.subn` for a literal pattern: leftmost,
non-overlapping.  `skip` counts characters of a match already consumed.
An empty pattern matches the empty string before every character and at
the end of the line. -/
def subnGo (old repl : List Char) : List Char → Nat → List Char × Nat
  | [], skip =>
    if skip = 0 && old.isEmpty then (repl, 1) else ([], 0)
  | c :: cs, skip =>
    match skip with
    | k + 1 => subnGo old repl cs k
    | 0 =>
      if old.isEmpty then
        let r := subnGo old repl cs 0
        (repl ++ c :: r.1, r.2 + 1)
      else if old.isPrefixOf (c :: cs) then
        let r := subnGo old repl cs (old.length - 1)
        (repl ++ r.1, r.2 + 1)
      else
        let r := subnGo old repl cs 0
        (c :: r.1, r.2)

/-- `re.subn(re.escape(old), repl_expanded, line)` and its count. -/
def subnLine (old repl line : List Char) : List Char × Nat :=
  subnGo old repl line 0

/-- The line loop of `replace_string_content` after a successful template
parse: each line rewritten by `re.subn`, counts accumulated. -/
def rscGo (old repl : List Char) : List (List Char) → List (List Char) × Nat
  | [] => ([], 0)
  | l :: ls =>
    let x := subnLine old repl l
    let r := rscGo old repl ls
    (x.1 :: r.1, x.2 + r.2)

/-- `replace_string_content`: read; per line call `re.subn` (whose first
call parses the replacement template — with no lines no template error can
surface); write back only when the total count is positive.  An `error`
value is the `re.error` exception propagating out of the method. -/
def replace_string_content (old new s : List Char) :
    Except (List Char) (List Char × Nat) :=
  let lines := splitLines s
  match lines with
  | [] => Except.ok (s, 0)
  | _ =>
    match parseTemplate new with
    | Except.error e => Except.error e
    | Except.ok items =>
      let repl := expandTemplate old items
      let r := rscGo old repl lines
      Except.ok (if 0 < r.2 then joinLines r.1 else s, r.2)

/-- The claim's algorithm for `replace_string_content`, written from the
spec's words: treat `old_string` as a literal, replace every
non-overlapping occurrence on every line by `new_string` **exactly as
given**, count the total, and leave the file untouched when the count is
zero.  (Second definition for the refinement comparison with the embedded
code.) -/
def litReplaceSpec (old new s : List Char) : List Char × Nat :=
  let r := rscGo old new (splitLines s)
  (if 0 < r.2 then joinLines r.1 else s, r.2)

/-! ## `utilities.verify_tcl_file` (utilities.py lines 86-108)

The model directory's filesystem state is abstracted as the list of names
(relative to the directory) that exist as regular files. -/

/-- `filename.endswith('.tcl')`. -/
def endsWithTcl (f : List Char) : Bool := (strL ".tcl").isSuffixOf f

/-- Append the `.tcl` suffix when missing. -/
def resolveTclName (f : List Char) : List Char :=
  if endsWithTcl f then f else f ++ strL ".tcl"

/-- `verify_tcl_file`: resolve the name, build the full path
(`model_path / filename`), succeed iff the resolved path is a regular
file, otherwise raise `FileNotFoundError` with the attempted filename and
the model directory in the message. -/
def verify_tcl_file (dirFiles : List (List Char)) (modelPath filename : List Char) :
    Except (List Char) (List Char) :=
  let fn := resolveTclName filename
  if dirFiles.contains fn then Except.ok (modelPath ++ '/' :: fn)
  else
    Except.error
      (strL "Critical Error: The required file '" ++ fn ++
        strL "' was not found in the model directory: '" ++ modelPath ++ strL "'")

/-! ## Batch drivers (batch_replace.py, batch_comment_out_block.py)

A discovered target file is abstracted as the name of its model directory
together with the outcome of locating/reading it: either the file's byte
contents, or the message of the exception raised while processing it
(locator failure, I/O error).  A root directory is the list of entries its
recursive walk discovers.  The drivers print; the prints carrying the
claims' content (per-file update/skip/error lines) are collected in a
log. -/

structure ModelEntry : Type where
  name : List Char
  data : Except (List Char) (List Char)

/-- Per-file work of `batch_replace`: anything raised while reading
propagates; otherwise run `replace_string_content` (which may itself
raise). -/
def processReplace (old new : List Char) (e : ModelEntry) :
    Except (List Char) (List Char × Nat) :=
  match e.data with
  | Except.error msg => Except.error msg
  | Except.ok content => replace_string_content old new content

/-- The count a successful file contributes; a failed file contributes
nothing. -/
def succReplCount (old new : List Char) (e : ModelEntry) : Nat :=
  match processReplace old new e with
  | Except.ok (_, n) => n
  | Except.error _ => 0

/-- The body of the per-file loop of `batch_replace`: the `try`/`except`
around each file turns an exception into an `[Error]` line naming the
model directory and continues; positive counts are accumulated into
`current_root_replacements`. -/
def replStep (old new : List Char) (acc : Nat × List (List Char)) (e : ModelEntry) :
    Nat × List (List Char) :=
  match processReplace old new e with
  | Except.ok (_, count) =>
    if 0 < count then (acc.1 + count, acc.2 ++ [strL "[Updated] " ++ e.name])
    else (acc.1, acc.2 ++ [strL "[Skipped] " ++ e.name ++ strL ": String not found."])
  | Except.error msg =>
    (acc.1, acc.2 ++ [strL "[Error] " ++ e.name ++ strL ": " ++ msg])

/-- The per-root loop of `batch_replace`. -/
def batchRootReplace (old new : List Char) (files : List ModelEntry) :
    Nat × List (List Char) :=
  files.foldl (replStep old new) (0, [])

/-- `batch_replace` over the given roots: accumulates
`total_replacements_global` and the per-file report lines. -/
def batch_replace (old new : List Char) (roots : List (List ModelEntry)) :
    Nat × List (List Char) :=
  roots.foldl
    (fun acc files =>
      (acc.1 + (batchRootReplace old new files).1,
        acc.2 ++ (batchRootReplace old new files).2))
    (0, [])

/-- Per-file work of `batch_comment_out_block`. -/
def processCob (ps pe : List Char → Bool) (e : ModelEntry) :
    Except (List Char) (List Char × Nat) :=
  match e.data with
  | Except.error msg => Except.error msg
  | Except.ok content => Except.ok (comment_out_block ps pe content)

/-- The modified-line count a successful file contributes. -/
def succCobCount (ps pe : List Char → Bool) (e : ModelEntry) : Nat :=
  match processCob ps pe e with
  | Except.ok (_, n) => n
  | Except.error _ => 0

/-- The body of the per-file loop of `batch_comment_out_block`. -/
def cobStep (ps pe : List Char → Bool) (acc : Nat × List (List Char)) (e : ModelEntry) :
    Nat × List (List Char) :=
  match processCob ps pe e with
  | Except.ok (_, count) =>
    if 0 < count then (acc.1 + count, acc.2 ++ [strL "[Updated] " ++ e.name])
    else
      (acc.1,
        acc.2 ++ [strL "[Skipped] " ++ e.name ++ strL ": Pattern not found or already commented."])
  | Except.error msg =>
    (acc.1, acc.2 ++ [strL "[Error] " ++ e.name ++ strL ": " ++ msg])

/-- The per-root loop of `batch_comment_out_block`. -/
def batchRootCob (ps pe : List Char → Bool) (files : List ModelEntry) :
    Nat × List (List Char) :=
  files.foldl (cobStep ps pe) (0, [])

/-- `batch_comment_out_block` over the given roots. -/
def batch_comment_out_block (ps pe : List Char → Bool) (roots : List (List ModelEntry)) :
    Nat × List (List Char) :=
  roots.foldl
    (fun acc files =>
      (acc.1 + (batchRootCob ps pe files).1,
        acc.2 ++ (batchRootCob ps pe files).2))
    (0, [])

/-- The one report line `batch_replace` prints for one discovered file. -/
def replLogLine (old new : List Char) (e : ModelEntry) : List Char :=
  match processReplace old new e with
  | Except.ok (_, count) =>
    if 0 < count then strL "[Updated] " ++ e.name
    else strL "[Skipped] " ++ e.name ++ strL ": String not found."
  | Except.error msg => strL "[Error] " ++ e.name ++ strL ": " ++ msg

/-- The one report line `batch_comment_out_block` prints for one file. -/
def cobLogLine (ps pe : List Char → Bool) (e : ModelEntry) : List Char :=
  match processCob ps pe e with
  | Except.ok (_, count) =>
    if 0 < count then strL "[Updated] " ++ e.name
    else strL "[Skipped] " ++ e.name ++ strL ": Pattern not found or already commented."
  | Except.error msg => strL "[Error] " ++ e.name ++ strL ": " ++ msg

/-! # Lemmas about the embedded operations -/

theorem injGo_true (p : List Char → Bool) (c : List Char) (ls : List (List Char)) :
    injGo p c ls true = (ls, true) := by
  induction ls with
  | nil => rfl
  | cons l ls ih => simp [injGo, ih]

theorem injGo_nomatch (p : List Char → Bool) (c : List Char) (ls : List (List Char))
    (h : ∀ l ∈ ls, p l = false) :
    injGo p c ls false = (ls, false) := by
  induction ls with
  | nil => rfl
  | cons l ls ih =>
    have hl : p l = false := h l (by simp)
    have ihh := ih (fun x hx => h x (by simp [hx]))
    simp [injGo, hl, ihh]

theorem injGo_decomp (p : List Char → Bool) (c : List Char)
    (pre : List (List Char)) (m : List Char) (post : List (List Char))
    (hpre : ∀ l ∈ pre, p l = false) (hm : p m = true) :
    injGo p c (pre ++ m :: post) false = (pre ++ m :: c :: post, true) := by
  induction pre with
  | nil => simp [injGo, hm, injGo_true]
  | cons a pre ih =>
    have ha : p a = false := hpre a (by simp)
    have ihh := ih (fun x hx => hpre x (by simp [hx]))
    simp [injGo, ha, ihh]

theorem injGo_snd_iff (p : List Char → Bool) (c : List Char) (ls : List (List Char)) :
    (injGo p c ls false).2 = true ↔ ∃ l ∈ ls, p l = true := by
  induction ls with
  | nil => simp [injGo]
  | cons l ls ih =>
    by_cases hl : p l = true
    · simp [injGo, hl, injGo_true]
    · have hl' : p l = false := by simpa using hl
      simp [injGo, hl', ih]

theorem rvvGo_eq_map (name value : List Char) (ls : List (List Char)) :
    rvvGo name value ls =
      (ls.map (fun l => if matchSetLine name l then canonicalSet name value else l),
        ls.any (matchSetLine name)) := by
  induction ls with
  | nil => rfl
  | cons l ls ih =>
    by_cases hl : matchSetLine name l
    · simp [rvvGo, hl, ih]
    · simp [rvvGo, hl, ih]

theorem cobGo_nomatch (ps pe : List Char → Bool) (ls : List (List Char))
    (h : ∀ l ∈ ls, ps l = false) :
    cobGo ps pe ls false = (ls, 0) := by
  induction ls with
  | nil => rfl
  | cons l ls ih =>
    have hl : ps l = false := h l (by simp)
    have ihh := ih (fun x hx => h x (by simp [hx]))
    simp [cobGo, hl, ihh]

/-- C1: for every file contents and every pattern matching no line of it,
`inject_line`, `replace_variable_value` (no line matches the built
`set`-assignment regex) and `comment_out_block` (the start pattern matches
no line) leave the file's bytes identical — no write occurs, since the
write is guarded by the "modified" report — and report no change:
`false`, `false`, and `0` respectively. -/
theorem noMatch_leaves_file_untouched (p pe : List Char → Bool)
    (c name value s : List Char)
    (hp : ∀ l ∈ splitLines s, p l = false)
    (hname : ∀ l ∈ splitLines s, matchSetLine name l = false) :
    inject_line p c s = (s, false) ∧
    replace_variable_value name value s = (s, false) ∧
    comment_out_block p pe s = (s, 0) := by
  refine ⟨?_, ?_, ?_⟩
  · simp [inject_line, injGo_nomatch p _ _ hp]
  · have hany : (splitLines s).any (matchSetLine name) = false := by
      simp only [List.any_eq_false]
      intro l hl
      simp [hname l hl]
    simp [replace_variable_value, rvvGo_eq_map, hany]
  · simp [comment_out_block, cobGo_nomatch p pe _ hp]

/-- C1 witness: the pattern `zzz` (as a literal) matches no line of the
file `"a\nb\n"`, and neither does the `set`-assignment regex for variable
`zzz`; all three operations leave the file untouched. -/
theorem noMatch_leaves_file_untouched_witness :
    inject_line (isSub (strL "zzz")) (strL "x") (strL "a\nb\n") = (strL "a\nb\n", false) ∧
    replace_variable_value (strL "zzz") (strL "1") (strL "a\nb\n") = (strL "a\nb\n", false) ∧
    comment_out_block (isSub (strL "zzz")) (isSub (strL "q")) (strL "a\nb\n") = (strL "a\nb\n", 0) :=
  noMatch_leaves_file_untouched (isSub (strL "zzz")) (isSub (strL "q"))
    (strL "x") (strL "zzz") (strL "1") (strL "a\nb\n")
    (by decide) (by decide)

/-- C5: `inject_line` reports `true` exactly when some line matches; when
the first matching line is `m`, the (newline-normalized) content is
inserted immediately after `m` and every other line passes through
unchanged, with at most this one insertion; the content gets a trailing
newline exactly when the caller omitted one; and with the empty pattern —
which matches every line — injection happens after the first line of any
nonempty file unconditionally. -/
theorem inject_line_spec (p : List Char → Bool) (c s : List Char) :
    ((inject_line p c s).2 = true ↔ ∃ l ∈ splitLines s, p l = true) ∧
    (∀ pre m post, splitLines s = pre ++ m :: post →
      (∀ l ∈ pre, p l = false) → p m = true →
      inject_line p c s = (joinLines (pre ++ m :: normContent c :: post), true)) ∧
    ((c.getLast? = some '\n' → normContent c = c) ∧
      (c.getLast? ≠ some '\n' → normContent c = c ++ ['\n'])) ∧
    (∀ m post, splitLines s = m :: post →
      inject_line emptyPattern c s = (joinLines (m :: normContent c :: post), true)) := by
  refine ⟨?_, ?_, ⟨?_, ?_⟩, ?_⟩
  · simp only [inject_line]
    exact injGo_snd_iff p (normContent c) (splitLines s)
  · intro pre m post hsplit hpre hm
    simp [inject_line, hsplit, injGo_decomp p (normContent c) pre m post hpre hm]
  · intro h; simp [normContent, h]
  · intro h; simp [normContent, h]
  · intro m post hsplit
    have hd := injGo_decomp emptyPattern (normContent c) [] m post (by simp) rfl
    simp only [List.nil_append] at hd
    simp [inject_line, hsplit, hd]

/-- C5 witness: injecting `"x"` (no trailing newline) after the first
line matching the literal pattern `b` in `"a\nb\nb\n"` inserts `"x\n"`
after the first `b` line only and reports `true`; the empty pattern
injects after the very first line. -/
theorem inject_line_spec_witness :
    inject_line (isSub (strL "b")) (strL "x") (strL "a\nb\nb\n") =
      (strL "a\nb\nx\nb\n", true) ∧
    inject_line emptyPattern (strL "x") (strL "a\nb\n") = (strL "a\nx\nb\n", true) := by
  constructor
  · have h := (inject_line_spec (isSub (strL "b")) (strL "x") (strL "a\nb\nb\n")).2.1
      [strL "a\n"] (strL "b\n") [strL "b\n"] (by decide) (by decide) (by decide)
    rw [h]; rfl
  · have h := (inject_line_spec (isSub (strL "b")) (strL "x") (strL "a\nb\n")).2.2.2
      (strL "a\n") [strL "b\n"] (by decide)
    rw [h]; rfl

/-! ## Lemmas about the `comment_out_block` state machine -/

/-- The sum of `cmtCount` over a block: the number of its lines not yet
commented. -/
def cmtSum (blk : List (List Char)) : Nat := (blk.map cmtCount).sum

theorem cobGo_inside_step (ps pe : List Char → Bool) (l : List Char)
    (ls : List (List Char)) (b : Bool) (hin : (b || ps l) = true) :
    cobGo ps pe (l :: ls) b =
      (applyCmt l :: (cobGo ps pe ls (if pe l then false else true)).1,
        cmtCount l + (cobGo ps pe ls (if pe l then false else true)).2) := by
  simp [cobGo, hin]

theorem cobGo_outside_step (ps pe : List Char → Bool) (l : List Char)
    (ls : List (List Char)) (b : Bool) (hin : (b || ps l) = false) :
    cobGo ps pe (l :: ls) b = (l :: (cobGo ps pe ls false).1, (cobGo ps pe ls false).2) := by
  simp only [cobGo, hin]
  rfl

theorem cobGo_count_zero (ps pe : List Char → Bool) (ls : List (List Char)) (b : Bool)
    (h : (cobGo ps pe ls b).2 = 0) : (cobGo ps pe ls b).1 = ls := by
  induction ls generalizing b with
  | nil => rfl
  | cons l ls ih =>
    by_cases hin : (b || ps l) = true
    · rw [cobGo_inside_step ps pe l ls b hin] at h ⊢
      simp only at h ⊢
      have h1 : cmtCount l = 0 := by omega
      have h2 : (cobGo ps pe ls (if pe l then false else true)).2 = 0 := by omega
      have hc : isCommented l = true := by
        by_contra hc
        simp [cmtCount, hc] at h1
      have hap : applyCmt l = l := by simp [applyCmt, hc]
      rw [hap, ih _ h2]
    · rw [cobGo_outside_step ps pe l ls b (by simpa using hin)] at h ⊢
      simp only at h ⊢
      simp [ih _ h]

theorem cobGo_skip (ps pe : List Char → Bool) (pre ls : List (List Char))
    (h : ∀ l ∈ pre, ps l = false) :
    cobGo ps pe (pre ++ ls) false =
      (pre ++ (cobGo ps pe ls false).1, (cobGo ps pe ls false).2) := by
  induction pre with
  | nil => simp
  | cons a pre ih =>
    have ha : ps a = false := h a (by simp)
    have ihh := ih (fun x hx => h x (by simp [hx]))
    simp [cobGo, ha, ihh]

theorem cobGo_enter (ps pe : List Char → Bool) (m : List Char) (ls : List (List Char))
    (hm : ps m = true) :
    cobGo ps pe (m :: ls) false =
      (applyCmt m :: (cobGo ps pe ls (if pe m then false else true)).1,
        cmtCount m + (cobGo ps pe ls (if pe m then false else true)).2) := by
  simp [cobGo, hm]

theorem cobGo_inside_open (ps pe : List Char → Bool) (blk ls : List (List Char))
    (h : ∀ l ∈ blk, pe l = false) :
    cobGo ps pe (blk ++ ls) true =
      (blk.map applyCmt ++ (cobGo ps pe ls true).1,
        cmtSum blk + (cobGo ps pe ls true).2) := by
  induction blk with
  | nil => simp [cmtSum]
  | cons a blk ih =>
    have ha : pe a = false := h a (by simp)
    have ihh := ih (fun x hx => h x (by simp [hx]))
    simp [cobGo, ha, ihh, cmtSum, Nat.add_assoc]

theorem cobGo_inside_close (ps pe : List Char → Bool) (e : List Char) (ls : List (List Char))
    (he : pe e = true) :
    cobGo ps pe (e :: ls) true =
      (applyCmt e :: (cobGo ps pe ls false).1, cmtCount e + (cobGo ps pe ls false).2) := by
  simp [cobGo, he]

/-- The result of `comment_out_block` is always the concatenation of the
state machine's output lines together with its count: when the count is
zero no line changed, so the unwritten original bytes coincide with the
output lines' concatenation. -/
theorem comment_out_block_eval (ps pe : List Char → Bool) (s : List Char) :
    comment_out_block ps pe s =
      (joinLines (cobGo ps pe (splitLines s) false).1,
        (cobGo ps pe (splitLines s) false).2) := by
  by_cases hz : 0 < (cobGo ps pe (splitLines s) false).2
  · simp [comment_out_block, hz]
  · have h0 : (cobGo ps pe (splitLines s) false).2 = 0 := by omega
    have h1 := cobGo_count_zero ps pe (splitLines s) false h0
    simp [comment_out_block, h0, h1, joinLines_splitLines]

/-- C3: `comment_out_block` comments the inclusive block from the first
start-pattern line to the next end-pattern line, prefixing each
not-yet-commented line with `"# "` and counting only those; a line
matching both patterns opens and closes the block by itself; and when the
end pattern never matches after the start line, the block runs to the end
of the file.  In particular the spec's scenario on
`["start\n","a\n","end\n","b\n"]` yields `["# start\n","# a\n","# end\n","b\n"]`
and the count `3`. -/
theorem comment_out_block_spec (ps pe : List Char → Bool) (s : List Char) :
    (comment_out_block (isSub (strL "start")) (isSub (strL "end"))
        (strL "start\na\nend\nb\n") = (strL "# start\n# a\n# end\nb\n", 3)) ∧
    (∀ pre m mid e rest,
      splitLines s = pre ++ m :: (mid ++ e :: rest) →
      (∀ l ∈ pre, ps l = false) → ps m = true →
      (∀ l ∈ m :: mid, pe l = false) → pe e = true →
      comment_out_block ps pe s =
        (joinLines (pre ++ (m :: mid).map applyCmt ++
            applyCmt e :: (cobGo ps pe rest false).1),
          cmtSum (m :: mid) + cmtCount e + (cobGo ps pe rest false).2)) ∧
    (∀ pre m rest,
      splitLines s = pre ++ m :: rest →
      (∀ l ∈ pre, ps l = false) → ps m = true → pe m = true →
      comment_out_block ps pe s =
        (joinLines (pre ++ applyCmt m :: (cobGo ps pe rest false).1),
          cmtCount m + (cobGo ps pe rest false).2)) ∧
    (∀ pre m rest,
      splitLines s = pre ++ m :: rest →
      (∀ l ∈ pre, ps l = false) → ps m = true →
      (∀ l ∈ m :: rest, pe l = false) →
      comment_out_block ps pe s =
        (joinLines (pre ++ (m :: rest).map applyCmt), cmtSum (m :: rest))) := by
  refine ⟨by decide, ?_, ?_, ?_⟩
  · intro pre m mid e rest hsplit hpre hm hblk he
    have hpem : pe m = false := hblk m (by simp)
    have hmid : ∀ l ∈ mid, pe l = false := fun l hl => hblk l (by simp [hl])
    have h1 := cobGo_skip ps pe pre (m :: (mid ++ e :: rest)) hpre
    have h2 := cobGo_enter ps pe m (mid ++ e :: rest) hm
    rw [if_neg (by simp [hpem])] at h2
    have h3 := cobGo_inside_open ps pe mid (e :: rest) hmid
    have h4 := cobGo_inside_close ps pe e rest he
    rw [comment_out_block_eval ps pe s]
    simp only [hsplit, h1, h2, h3, h4, Prod.mk.injEq]
    constructor
    · congr 1
      simp
    · simp [cmtSum]
      omega
  · intro pre m rest hsplit hpre hm hpm
    have h1 := cobGo_skip ps pe pre (m :: rest) hpre
    have h2 := cobGo_enter ps pe m rest hm
    rw [if_pos hpm] at h2
    rw [comment_out_block_eval ps pe s]
    simp only [hsplit, h1, h2]
  · intro pre m rest hsplit hpre hm hblk
    have h1 := cobGo_skip ps pe pre (m :: rest) hpre
    have h2' : cobGo ps pe (m :: rest) false =
        ((m :: rest).map applyCmt, cmtSum (m :: rest)) := by
      have he := cobGo_enter ps pe m rest hm
      rw [if_neg (by simp [hblk m (by simp)])] at he
      have ho := cobGo_inside_open ps pe rest [] (fun l hl => hblk l (by simp [hl]))
      simp only [List.append_nil, cobGo] at ho
      rw [he, ho]
      simp [cmtSum]
    rw [comment_out_block_eval ps pe s]
    simp only [hsplit, h1, h2']

/-- C3 witness: a line matching both patterns is a single-line block, and
a start with no later end comments everything to the end of the file. -/
theorem comment_out_block_spec_witness :
    comment_out_block (isSub (strL "go")) (isSub (strL "go")) (strL "a\ngo\nb\n") =
      (strL "a\n# go\nb\n", 1) ∧
    comment_out_block (isSub (strL "start")) (isSub (strL "zzz")) (strL "a\nstart\nb\nc\n") =
      (strL "a\n# start\n# b\n# c\n", 3) := by
  constructor
  · have h := (comment_out_block_spec (isSub (strL "go")) (isSub (strL "go"))
        (strL "a\ngo\nb\n")).2.2.1
      [strL "a\n"] (strL "go\n") [strL "b\n"] (by decide) (by decide) (by decide) (by decide)
    rw [h]; rfl
  · have h := (comment_out_block_spec (isSub (strL "start")) (isSub (strL "zzz"))
        (strL "a\nstart\nb\nc\n")).2.2.2
      [strL "a\n"] (strL "start\n") [strL "b\n", strL "c\n"]
      (by decide) (by decide) (by decide) (by decide)
    rw [h]; rfl

theorem cobGo_congr (ps pe ps' pe' : List Char → Bool) :
    ∀ (ls : List (List Char)) (b : Bool),
      (∀ l ∈ ls, ps l = ps' l ∧ pe l = pe' l) →
      cobGo ps pe ls b = cobGo ps' pe' ls b := by
  intro ls
  induction ls with
  | nil => intro b h; rfl
  | cons l ls ih =>
    intro b h
    have hl := h l (by simp)
    have ihh := fun b => ih b (fun x hx => h x (by simp [hx]))
    by_cases hin : (b || ps l) = true
    · rw [cobGo_inside_step ps pe l ls b hin,
        cobGo_inside_step ps' pe' l ls b (by rw [← hl.1]; exact hin), hl.2, ihh _]
    · have hin' : (b || ps l) = false := by simpa using hin
      rw [cobGo_outside_step ps pe l ls b hin',
        cobGo_outside_step ps' pe' l ls b (by rw [← hl.1]; exact hin'), ihh _]

/-- C10: inside one `comment_out_block` call both patterns are evaluated
against the original line text, never against the `"# "`-prefixed line
produced in the same pass: the whole run is determined by the patterns'
values on the original lines (two pattern pairs agreeing there — however
they behave on prefixed lines — give identical output).  Consequently an
end pattern anchored at line start still closes a block whose end line was
just prefixed, as the concrete `^end` run shows: the line after the
anchored end line stays unmodified. -/
theorem cob_patterns_see_original_text (ps pe ps' pe' : List Char → Bool) (s : List Char)
    (h : ∀ l ∈ splitLines s, ps l = ps' l ∧ pe l = pe' l) :
    comment_out_block ps pe s = comment_out_block ps' pe' s ∧
    comment_out_block (isSub (strL "start")) (startsWithL (strL "end"))
        (strL "start\nend\nx\n") = (strL "# start\n# end\nx\n", 2) := by
  constructor
  · rw [comment_out_block_eval, comment_out_block_eval,
      cobGo_congr ps pe ps' pe' _ false h]
  · decide

/-- C10 witness: the literal matcher for `end` and a matcher that only
accepts the exact line `end\n` agree on every line of the file, so the
runs coincide even though the two matchers disagree on the prefixed line
`# end\n`. -/
theorem cob_patterns_see_original_text_witness :
    comment_out_block (isSub (strL "start")) (isSub (strL "end")) (strL "start\nend\nb\n") =
      comment_out_block (isSub (strL "start"))
        (fun l => l = strL "end\n") (strL "start\nend\nb\n") ∧
    isSub (strL "end") (strL "# end\n") ≠
      (fun l => l = strL "end\n") (strL "# end\n") :=
  ⟨(cob_patterns_see_original_text (isSub (strL "start")) (isSub (strL "end"))
      (isSub (strL "start")) (fun l => l = strL "end\n") (strL "start\nend\nb\n")
      (by decide)).1,
    by decide⟩

/-! ## Double application of `comment_out_block` (C6) -/

theorem isCommented_cmt (l : List Char) : isCommented ('#' :: ' ' :: l) = true := by
  have h : isPySpace '#' = false := by decide
  simp [isCommented, List.dropWhile_cons, h]

theorem isCommented_applyCmt (l : List Char) : isCommented (applyCmt l) = true := by
  by_cases h : isCommented l
  · simp [applyCmt, h]
  · simp [applyCmt, h, isCommented_cmt]

theorem applyCmt_of_commented {x : List Char} (h : isCommented x = true) :
    applyCmt x = x := by
  simp [applyCmt, h]

theorem applyCmt_applyCmt (l : List Char) : applyCmt (applyCmt l) = applyCmt l :=
  applyCmt_of_commented (isCommented_applyCmt l)

theorem cmtCount_applyCmt (l : List Char) : cmtCount (applyCmt l) = 0 := by
  simp [cmtCount, isCommented_applyCmt]

/-- Each output line of the state machine is the input line, either
unchanged or with the `"# "` prefix. -/
theorem cobGo_shape (ps pe : List Char → Bool) :
    ∀ (ls : List (List Char)) (b : Bool),
      List.Forall₂ (fun l l' => l' = l ∨ l' = '#' :: ' ' :: l) ls (cobGo ps pe ls b).1 := by
  intro ls
  induction ls with
  | nil => intro b; exact List.Forall₂.nil
  | cons l ls ih =>
    intro b
    by_cases hin : (b || ps l) = true
    · rw [cobGo_inside_step ps pe l ls b hin]
      refine List.Forall₂.cons ?_ (ih _)
      by_cases hc : isCommented l
      · exact Or.inl (by simp [applyCmt, hc])
      · exact Or.inr (by simp [applyCmt, hc])
    · rw [cobGo_outside_step ps pe l ls b (by simpa using hin)]
      exact List.Forall₂.cons (Or.inl rfl) (ih _)

theorem wfline_of_rel {l l' : List Char}
    (h : l' = l ∨ l' = '#' :: ' ' :: l) (hwf : WFline l) :
    WFline l' ∧ (l.getLast? = some '\n' → l'.getLast? = some '\n') := by
  rcases h with h | h
  · subst h; exact ⟨hwf, fun hx => hx⟩
  · subst h
    rcases hwf with ⟨hne, hint⟩
    cases l with
    | nil => exact absurd rfl hne
    | cons a as =>
      refine ⟨⟨by simp, ?_⟩, ?_⟩
      · rw [dropLast_cons2, dropLast_cons2]
        intro hmem
        rcases List.mem_cons.1 hmem with h1 | h1
        · exact absurd h1.symm (by decide)
        · rcases List.mem_cons.1 h1 with h2 | h2
          · exact absurd h2.symm (by decide)
          · exact hint h2
      · intro hx
        rw [List.getLast?_cons_cons, List.getLast?_cons_cons]
        exact hx

/-- Well-formedness of a line list survives the per-line `"# "`
prefixing. -/
theorem wf_of_forall₂ :
    ∀ (ls ls' : List (List Char)),
      List.Forall₂ (fun l l' => l' = l ∨ l' = '#' :: ' ' :: l) ls ls' →
      WF ls → WF ls' := by
  intro ls ls' h
  induction h with
  | nil => intro _; trivial
  | cons hrel htail ih =>
    rename_i l l' t t'
    intro hwf
    cases htail with
    | nil =>
      have hwfl : WFline l := hwf
      exact (wfline_of_rel hrel hwfl).1
    | cons hrel2 htail2 =>
      rename_i a a' t₂ t₂'
      rcases hwf with ⟨hwfl, hnl, hrest⟩
      have hih := ih hrest
      rcases wfline_of_rel hrel hwfl with ⟨hwfl', hnl'⟩
      exact ⟨hwfl', hnl' hnl, hih⟩

/-- Running the state machine on its own output (same starting state)
changes nothing and counts zero, provided prefixing a line with `"# "`
does not change either pattern's verdict on it. -/
theorem cobGo_twice (ps pe : List Char → Bool) :
    ∀ (ls : List (List Char)) (b : Bool),
      (∀ l ∈ ls, ps ('#' :: ' ' :: l) = ps l ∧ pe ('#' :: ' ' :: l) = pe l) →
      cobGo ps pe (cobGo ps pe ls b).1 b = ((cobGo ps pe ls b).1, 0) := by
  intro ls
  induction ls with
  | nil => intro b h; rfl
  | cons l ls ih =>
    intro b h
    have hl := h l (by simp)
    have ihh := fun b => ih b (fun x hx => h x (by simp [hx]))
    have hps : ps (applyCmt l) = ps l := by
      by_cases hc : isCommented l
      · simp [applyCmt, hc]
      · simp [applyCmt, hc, hl.1]
    have hpe : pe (applyCmt l) = pe l := by
      by_cases hc : isCommented l
      · simp [applyCmt, hc]
      · simp [applyCmt, hc, hl.2]
    by_cases hin : (b || ps l) = true
    · rw [cobGo_inside_step ps pe l ls b hin]
      simp only
      rw [cobGo_inside_step ps pe (applyCmt l) _ b (by rw [hps]; exact hin)]
      rw [applyCmt_applyCmt, cmtCount_applyCmt, hpe, ihh _]
      simp
    · have hin' : (b || ps l) = false := by simpa using hin
      rw [cobGo_outside_step ps pe l ls b hin']
      simp only
      rw [cobGo_outside_step ps pe l _ b hin']
      rw [ihh false]

/-- C6 counterexample: with start pattern `start` and the anchored end
pattern `^end`, the first run on `["start\n","end\n","x\n","end\n"]`
comments the two-line block; in the second run the prefixed `# end\n` no
longer matches `^end`, so the block runs on and the second call reports
`2` newly commented lines — not `0` — and changes the file again. -/
theorem comment_out_block_twice_counterexample :
    comment_out_block (isSub (strL "start")) (startsWithL (strL "end"))
        ((comment_out_block (isSub (strL "start")) (startsWithL (strL "end"))
          (strL "start\nend\nx\nend\n")).1) =
      (strL "# start\n# end\n# x\n# end\n", 2) ∧ (2 : Nat) ≠ 0 :=
  ⟨by decide, by decide⟩

/-- C6 (amended): for patterns whose per-line verdict is unchanged by the
`"# "` comment prefix (as for plain substring patterns not involving the
marker or anchors), a second `comment_out_block` run with the same
patterns reports `0` modified lines and leaves the file unchanged. -/
theorem comment_out_block_twice_stable (ps pe : List Char → Bool) (s : List Char)
    (h : ∀ l ∈ splitLines s, ps ('#' :: ' ' :: l) = ps l ∧ pe ('#' :: ' ' :: l) = pe l) :
    comment_out_block ps pe ((comment_out_block ps pe s).1) =
      ((comment_out_block ps pe s).1, 0) := by
  have hc1 : (comment_out_block ps pe s).1 =
      joinLines (cobGo ps pe (splitLines s) false).1 := by
    rw [comment_out_block_eval]
  have hwf : WF (cobGo ps pe (splitLines s) false).1 :=
    wf_of_forall₂ _ _ (cobGo_shape ps pe (splitLines s) false) (wf_splitLines s)
  have hsplit : splitLines (joinLines (cobGo ps pe (splitLines s) false).1) =
      (cobGo ps pe (splitLines s) false).1 := splitLines_joinLines hwf
  have htwice := cobGo_twice ps pe (splitLines s) false h
  rw [hc1, comment_out_block_eval, hsplit, htwice]

/-- C6 witness: with plain substring patterns the second run reports `0`
and leaves the once-commented file byte-identical. -/
theorem comment_out_block_twice_stable_witness :
    comment_out_block (isSub (strL "start")) (isSub (strL "end"))
        (strL "# start\n# end\nx\n") = (strL "# start\n# end\nx\n", 0) := by
  have h := comment_out_block_twice_stable (isSub (strL "start")) (isSub (strL "end"))
    (strL "start\nend\nx\n") (by decide)
  have e : (comment_out_block (isSub (strL "start")) (isSub (strL "end"))
      (strL "start\nend\nx\n")).1 = strL "# start\n# end\nx\n" := by decide
  rw [e] at h
  exact h

/-! ## The `set`-assignment matcher (C4) -/

theorem dropWhile_ws_append (a y : List Char)
    (h : ∀ x ∈ a, isPySpace x = true) :
    (a ++ y).dropWhile isPySpace = y.dropWhile isPySpace := by
  induction a with
  | nil => rfl
  | cons x a ih =>
    have hx : isPySpace x = true := h x (by simp)
    have ihh := ih (fun z hz => h z (by simp [hz]))
    simp [List.dropWhile_cons, hx, ihh]

theorem scanName_iff (name : List Char) :
    ∀ rest, scanName name rest = true ↔
      ∃ b d t, rest = b ++ name ++ d :: t ∧ b ≠ [] ∧
        (∀ x ∈ b, isPySpace x = true) ∧ isPySpace d = true := by
  intro rest
  induction rest with
  | nil =>
    constructor
    · intro h
      simp [scanName] at h
    · rintro ⟨b, d, t, heq, hbne, _, _⟩
      cases b with
      | nil => exact absurd rfl hbne
      | cons w b' => simp at heq
  | cons c cs ih =>
    constructor
    · intro hscan
      simp only [scanName] at hscan
      by_cases hws : isPySpace c
      · rw [if_pos hws] at hscan
        rcases Bool.or_eq_true_iff.1 hscan with hfirst | hrec
        · rcases Bool.and_eq_true_iff.1 hfirst with ⟨hpre, hhead⟩
          rcases List.isPrefixOf_iff_prefix.1 hpre with ⟨t0, ht0⟩
          rw [← ht0, List.drop_left] at hhead
          cases t0 with
          | nil => simp at hhead
          | cons d t =>
            simp only [List.head?_cons] at hhead
            have hd : isPySpace d = true := by
              cases hx : isPySpace d
              · rw [hx] at hhead; exact absurd hhead (by simp)
              · rfl
            exact ⟨[c], d, t, by simp [← ht0], by simp, by
              intro x hx
              rcases List.mem_singleton.1 hx with rfl
              exact hws, hd⟩
        · rcases (ih.1 hrec) with ⟨b, d, t, heq, hbne, hbws, hd⟩
          refine ⟨c :: b, d, t, by simp [heq], by simp, ?_, hd⟩
          intro x hx
          rcases List.mem_cons.1 hx with rfl | hx
          · exact hws
          · exact hbws x hx
      · rw [if_neg hws] at hscan
        exact absurd hscan (by simp)
    · rintro ⟨b, d, t, heq, hbne, hbws, hd⟩
      cases b with
      | nil => exact absurd rfl hbne
      | cons w b' =>
        simp only [List.cons_append, List.cons.injEq] at heq
        rcases heq with ⟨rfl, heq2⟩
        have hcws : isPySpace c = true := hbws c (by simp)
        simp only [scanName, if_pos hcws]
        cases b' with
        | nil =>
          apply Bool.or_eq_true_iff.2
          left
          apply Bool.and_eq_true_iff.2
          simp only [List.nil_append] at heq2
          constructor
          · exact List.isPrefixOf_iff_prefix.2 ⟨d :: t, heq2.symm⟩
          · rw [heq2, List.drop_left]
            simp [hd]
        | cons w' b'' =>
          apply Bool.or_eq_true_iff.2
          right
          exact ih.2 ⟨w' :: b'', d, t, heq2, by simp, fun x hx => hbws x (by simp [hx]), hd⟩

theorem matchSetLine_iff (name l : List Char) :
    matchSetLine name l = true ↔
      ∃ a b d t, l = a ++ strL "set" ++ b ++ name ++ d :: t ∧
        (∀ x ∈ a, isPySpace x = true) ∧ b ≠ [] ∧
        (∀ x ∈ b, isPySpace x = true) ∧ isPySpace d = true := by
  constructor
  · intro hm
    simp only [matchSetLine] at hm
    split at hm
    · rename_i rest heq
      rcases (scanName_iff name rest).1 hm with ⟨b, d, t, heqr, hbne, hbws, hd⟩
      refine ⟨l.takeWhile isPySpace, b, d, t, ?_, ?_, hbne, hbws, hd⟩
      · conv_lhs => rw [← List.takeWhile_append_dropWhile isPySpace l]
        rw [heq, heqr]
        simp [strL]
      · intro x hx
        exact List.mem_takeWhile_imp hx
    · exact absurd hm (by simp)
  · rintro ⟨a, b, d, t, heq, haws, hbne, hbws, hd⟩
    have hdrop : l.dropWhile isPySpace = strL "set" ++ b ++ name ++ d :: t := by
      rw [heq]
      rw [show a ++ strL "set" ++ b ++ name ++ d :: t =
        a ++ (strL "set" ++ b ++ name ++ d :: t) by simp]
      rw [dropWhile_ws_append a _ haws]
      have : isPySpace 's' = false := by decide
      simp [strL, List.dropWhile_cons, this]
    simp only [matchSetLine, hdrop]
    show scanName name (b ++ name ++ d :: t) = true
    exact (scanName_iff name _).2 ⟨b, d, t, by simp, hbne, hbws, hd⟩

/-- C4: `replace_variable_value` replaces **every** line matching the
built pattern — optional leading whitespace, the keyword `set`,
whitespace, the exact variable name taken literally (the matcher embeds
the name as a character sequence, as `re.escape` guarantees), whitespace,
then arbitrary content — wholesale with the canonical line
`set <name> <value>\n`, discarding the original indentation and trailing
content; non-matching lines pass through byte-identical; the report is
`true` iff at least one line matched; and on `"set dt 0.01\n"` the update
to `0.02` yields `"set dt 0.02\n"` and `true`. -/
theorem replace_variable_value_spec (name value s : List Char) :
    (∀ l, matchSetLine name l = true ↔
      ∃ a b d t, l = a ++ strL "set" ++ b ++ name ++ d :: t ∧
        (∀ x ∈ a, isPySpace x = true) ∧ b ≠ [] ∧
        (∀ x ∈ b, isPySpace x = true) ∧ isPySpace d = true) ∧
    replace_variable_value name value s =
      (if (splitLines s).any (matchSetLine name) then
        joinLines ((splitLines s).map
          (fun l => if matchSetLine name l then canonicalSet name value else l))
      else s,
      (splitLines s).any (matchSetLine name)) ∧
    replace_variable_value (strL "dt") (strL "0.02") (strL "set dt 0.01\n") =
      (strL "set dt 0.02\n", true) := by
  refine ⟨fun l => matchSetLine_iff name l, ?_, by decide⟩
  simp only [replace_variable_value, rvvGo_eq_map]

/-- C4 witness: `"  set dt 5\n"` matches the pattern for `dt` and is
rewritten to the canonical line; `"set dtx 5\n"` does not match and is
kept; the decomposition produced by the characterization is exhibited. -/
theorem replace_variable_value_spec_witness :
    replace_variable_value (strL "dt") (strL "0.02") (strL "  set dt 5\nset dtx 5\n") =
      (strL "set dt 0.02\nset dtx 5\n", true) ∧
    (∃ a b d t, strL "  set dt 5\n" = a ++ strL "set" ++ b ++ strL "dt" ++ d :: t ∧
      (∀ x ∈ a, isPySpace x = true) ∧ b ≠ [] ∧
      (∀ x ∈ b, isPySpace x = true) ∧ isPySpace d = true) := by
  constructor
  · have h := (replace_variable_value_spec (strL "dt") (strL "0.02")
      (strL "  set dt 5\nset dtx 5\n")).2.1
    rw [h]
    rfl
  · exact ((replace_variable_value_spec (strL "dt") (strL "0.02")
      (strL "  set dt 5\nset dtx 5\n")).1 (strL "  set dt 5\n")).1 (by decide)

/-! ## Double application of `replace_variable_value` (C7) -/

theorem parseTemplateF_no_backslash :
    ∀ (fuel : Nat) (repl : List Char), repl.length < fuel → '\\' ∉ repl →
      parseTemplateF fuel repl = Except.ok (repl.map TmplItem.lit) := by
  intro fuel
  induction fuel with
  | zero => intro repl h _; omega
  | succ fuel ih =>
    intro repl hlen hnb
    cases repl with
    | nil => rfl
    | cons c rest =>
      have hc : c ≠ '\\' := fun h => hnb (by simp [h])
      have hr := ih rest (by simp at hlen; omega) (fun h => hnb (by simp [h]))
      simp only [parseTemplateF]
      split
      · rename_i items heq
        rw [hr] at heq
        cases heq
        simp
      · rename_i heq
        exact absurd (heq (rest.map TmplItem.lit) hr) (fun h => h)

theorem expandTemplate_map_lit (old repl : List Char) :
    expandTemplate old (repl.map TmplItem.lit) = repl := by
  induction repl with
  | nil => rfl
  | cons c rest ih => simp [expandTemplate, ih]

/-- C2 counterexample: the code passes `new_string` to `re.subn` as a
replacement template, so its pattern semantics leak to the caller: with
`new_string` the two characters `\n`, the occurrence of `a` in `"a\n"` is
replaced by a newline character, not by `\n` verbatim as the claim's
literal replacement prescribes; and with `new_string` the two characters
`\q` the call raises a bad-escape error instead of returning a count. -/
theorem replace_string_content_template_counterexample :
    replace_string_content (strL "a") (strL "\\n") (strL "a\n") =
      Except.ok (strL "\n\n", 1) ∧
    litReplaceSpec (strL "a") (strL "\\n") (strL "a\n") = (strL "\\n\n", 1) ∧
    strL "\n\n" ≠ strL "\\n\n" ∧
    replace_string_content (strL "a") (strL "\\q") (strL "a\n") =
      Except.error (strL "bad escape") :=
  ⟨by rfl, by rfl, by decide, by rfl⟩

/-- C2 (amended): provided `new_string` contains no backslash,
`replace_string_content` performs a case-sensitive, purely literal
replacement — every non-overlapping occurrence of `old_string` on every
line is replaced by `new_string` exactly as given (`old_string` is
escaped, so none of its pattern characters are special) — returning the
total occurrence count, and a zero count leaves the file untouched.  The
two closed conjuncts exhibit the non-overlapping (leftmost-first) and
case-sensitive behavior of the shared literal scanner. -/
theorem replace_string_content_literal (old new s : List Char) (hb : '\\' ∉ new) :
    replace_string_content old new s = Except.ok (litReplaceSpec old new s) ∧
    (∀ out, replace_string_content old new s = Except.ok out →
      out.2 = 0 → out.1 = s) ∧
    subnLine (strL "aba") (strL "X") (strL "ababa") = (strL "Xba", 1) ∧
    subnLine (strL "A") (strL "X") (strL "a a\n") = (strL "a a\n", 0) := by
  refine ⟨?_, ?_, by decide, by decide⟩
  · have hpt : parseTemplate new = Except.ok (new.map TmplItem.lit) :=
      parseTemplateF_no_backslash (new.length + 1) new (Nat.lt_succ_self _) hb
    simp only [replace_string_content, litReplaceSpec]
    cases h : splitLines s with
    | nil => simp [rscGo]
    | cons l ls =>
      rw [hpt]
      simp [expandTemplate_map_lit]
  · intro out hok h0
    simp only [replace_string_content] at hok
    cases h : splitLines s with
    | nil =>
      rw [h] at hok
      cases hok
      rfl
    | cons l ls =>
      rw [h] at hok
      cases hpt : parseTemplate new with
      | error e => rw [hpt] at hok; cases hok
      | ok items =>
        rw [hpt] at hok
        simp only at hok
        cases hok
        simp only at h0
        simp [h0]

/-- C2 witness: with a backslash-free replacement string the code result
coincides with the spec's literal replacement, here on a path-like
string. -/
theorem replace_string_content_literal_witness :
    replace_string_content (strL "old/path") (strL "new.path")
        (strL "x old/path y old/path\nz\n") =
      Except.ok (litReplaceSpec (strL "old/path") (strL "new.path")
        (strL "x old/path y old/path\nz\n")) ∧
    litReplaceSpec (strL "old/path") (strL "new.path")
        (strL "x old/path y old/path\nz\n") =
      (strL "x new.path y new.path\nz\n", 2) := by
  constructor
  · exact (replace_string_content_literal (strL "old/path") (strL "new.path")
      (strL "x old/path y old/path\nz\n") (by decide)).1
  · rfl

/-! ## Batch drivers (C8) -/

theorem replStep_eq (old new : List Char) (acc : Nat × List (List Char)) (e : ModelEntry) :
    replStep old new acc e =
      (acc.1 + succReplCount old new e, acc.2 ++ [replLogLine old new e]) := by
  simp only [replStep, succReplCount, replLogLine]
  cases h : processReplace old new e with
  | error msg => simp [h]
  | ok p =>
    rcases p with ⟨x, count⟩
    by_cases hc : 0 < count
    · simp [h, hc]
    · have h0 : count = 0 := by omega
      simp [h, hc, h0]

theorem cobStep_eq (ps pe : List Char → Bool) (acc : Nat × List (List Char)) (e : ModelEntry) :
    cobStep ps pe acc e =
      (acc.1 + succCobCount ps pe e, acc.2 ++ [cobLogLine ps pe e]) := by
  simp only [cobStep, succCobCount, cobLogLine]
  cases h : processCob ps pe e with
  | error msg => simp [h]
  | ok p =>
    rcases p with ⟨x, count⟩
    by_cases hc : 0 < count
    · simp [h, hc]
    · have h0 : count = 0 := by omega
      simp [h, hc, h0]

theorem batchRootReplace_eq (old new : List Char) :
    ∀ (files : List ModelEntry) (acc : Nat × List (List Char)),
      files.foldl (replStep old new) acc =
        (acc.1 + (files.map (succReplCount old new)).sum,
          acc.2 ++ files.map (replLogLine old new)) := by
  intro files
  induction files with
  | nil => intro acc; simp
  | cons e t ih =>
    intro acc
    rw [List.foldl_cons, replStep_eq, ih]
    simp [Nat.add_assoc]

theorem batchRootCob_eq (ps pe : List Char → Bool) :
    ∀ (files : List ModelEntry) (acc : Nat × List (List Char)),
      files.foldl (cobStep ps pe) acc =
        (acc.1 + (files.map (succCobCount ps pe)).sum,
          acc.2 ++ files.map (cobLogLine ps pe)) := by
  intro files
  induction files with
  | nil => intro acc; simp
  | cons e t ih =>
    intro acc
    rw [List.foldl_cons, cobStep_eq, ih]
    simp [Nat.add_assoc]

theorem batch_replace_eq (old new : List Char) :
    ∀ (roots : List (List ModelEntry)) (acc : Nat × List (List Char)),
      roots.foldl
        (fun acc files =>
          (acc.1 + (batchRootReplace old new files).1,
            acc.2 ++ (batchRootReplace old new files).2)) acc =
        (acc.1 + (roots.map (fun fs => (fs.map (succReplCount old new)).sum)).sum,
          acc.2 ++ (roots.map (fun fs => fs.map (replLogLine old new))).flatten) := by
  intro roots
  induction roots with
  | nil => intro acc; simp
  | cons fs t ih =>
    intro acc
    rw [List.foldl_cons, ih]
    simp only [batchRootReplace, batchRootReplace_eq old new fs (0, [])]
    simp [Nat.add_assoc]

theorem batch_cob_eq (ps pe : List Char → Bool) :
    ∀ (roots : List (List ModelEntry)) (acc : Nat × List (List Char)),
      roots.foldl
        (fun acc files =>
          (acc.1 + (batchRootCob ps pe files).1,
            acc.2 ++ (batchRootCob ps pe files).2)) acc =
        (acc.1 + (roots.map (fun fs => (fs.map (succCobCount ps pe)).sum)).sum,
          acc.2 ++ (roots.map (fun fs => fs.map (cobLogLine ps pe))).flatten) := by
  intro roots
  induction roots with
  | nil => intro acc; simp
  | cons fs t ih =>
    intro acc
    rw [List.foldl_cons, ih]
    simp only [batchRootCob, batchRootCob_eq ps pe fs (0, [])]
    simp [Nat.add_assoc]

/-- C8: the batch drivers never abort early.  The global total each driver
reports equals the sum, over all roots and all discovered files, of the
per-file counts of the files whose processing succeeded (a failed file
contributes nothing); for both drivers, inserting a file whose processing
raises anywhere in a root changes no total — the exception is caught and
the remaining files still processed — and the failure is reported in an
`[Error]` line carrying the model directory's name; and the spec's
scenario — two roots, each with one file holding one occurrence of the old
string — reports the global total `2`. -/
theorem batch_drivers_never_abort (old new : List Char) (ps pe : List Char → Bool)
    (roots : List (List ModelEntry)) :
    (batch_replace old new roots).1 =
      (roots.map (fun fs => (fs.map (succReplCount old new)).sum)).sum ∧
    (batch_comment_out_block ps pe roots).1 =
      (roots.map (fun fs => (fs.map (succCobCount ps pe)).sum)).sum ∧
    (∀ pre post nm msg,
      (batchRootReplace old new (pre ++ ⟨nm, Except.error msg⟩ :: post)).1 =
        (batchRootReplace old new (pre ++ post)).1 ∧
      (strL "[Error] " ++ nm ++ strL ": " ++ msg) ∈
        (batchRootReplace old new (pre ++ ⟨nm, Except.error msg⟩ :: post)).2) ∧
    (∀ pre post nm msg,
      (batchRootCob ps pe (pre ++ ⟨nm, Except.error msg⟩ :: post)).1 =
        (batchRootCob ps pe (pre ++ post)).1 ∧
      (strL "[Error] " ++ nm ++ strL ": " ++ msg) ∈
        (batchRootCob ps pe (pre ++ ⟨nm, Except.error msg⟩ :: post)).2) ∧
    (batch_replace (strL "old") (strL "new")
        [[⟨strL "m1", Except.ok (strL "x old y\n")⟩],
          [⟨strL "m2", Except.ok (strL "z old\n")⟩]]).1 = 2 := by
  refine ⟨?_, ?_, ?_, ?_, by rfl⟩
  · rw [batch_replace, batch_replace_eq old new roots (0, [])]
    simp
  · rw [batch_comment_out_block, batch_cob_eq ps pe roots (0, [])]
    simp
  · intro pre post nm msg
    have hsucc : succReplCount old new ⟨nm, Except.error msg⟩ = 0 := by
      simp [succReplCount, processReplace]
    have hlog : replLogLine old new ⟨nm, Except.error msg⟩ =
        strL "[Error] " ++ nm ++ strL ": " ++ msg := by
      simp [replLogLine, processReplace]
    constructor
    · rw [batchRootReplace, batchRootReplace,
        batchRootReplace_eq old new _ (0, []), batchRootReplace_eq old new _ (0, [])]
      simp [hsucc]
    · rw [batchRootReplace, batchRootReplace_eq old new _ (0, [])]
      simp only [List.nil_append, List.map_append, List.map_cons]
      rw [hlog]
      simp
  · intro pre post nm msg
    have hsucc : succCobCount ps pe ⟨nm, Except.error msg⟩ = 0 := by
      simp [succCobCount, processCob]
    have hlog : cobLogLine ps pe ⟨nm, Except.error msg⟩ =
        strL "[Error] " ++ nm ++ strL ": " ++ msg := by
      simp [cobLogLine, processCob]
    constructor
    · rw [batchRootCob, batchRootCob,
        batchRootCob_eq ps pe _ (0, []), batchRootCob_eq ps pe _ (0, [])]
      simp [hsucc]
    · rw [batchRootCob, batchRootCob_eq ps pe _ (0, [])]
      simp only [List.nil_append, List.map_append, List.map_cons]
      rw [hlog]
      simp

/-! ## `verify_tcl_file` (C9) -/

/-- C9: `verify_tcl_file` appends the `.tcl` extension exactly when the
given filename does not already end in `.tcl`; it returns the full path
`model_path / resolved-name` exactly when that resolved name is a regular
file of the model directory, and otherwise raises a file-not-found error —
so it raises iff the resolved path is not a regular file — whose message
contains the attempted filename and the model directory. -/
theorem verify_tcl_file_spec (dirFiles : List (List Char)) (modelPath filename : List Char) :
    (endsWithTcl filename = true → resolveTclName filename = filename) ∧
    (endsWithTcl filename = false →
      resolveTclName filename = filename ++ strL ".tcl") ∧
    (dirFiles.contains (resolveTclName filename) = true →
      verify_tcl_file dirFiles modelPath filename =
        Except.ok (modelPath ++ '/' :: resolveTclName filename)) ∧
    (dirFiles.contains (resolveTclName filename) = false →
      ∃ msg, verify_tcl_file dirFiles modelPath filename = Except.error msg) ∧
    (∀ msg, verify_tcl_file dirFiles modelPath filename = Except.error msg →
      dirFiles.contains (resolveTclName filename) = false ∧
      ∃ x y z, msg = x ++ resolveTclName filename ++ y ++ modelPath ++ z) := by
  refine ⟨?_, ?_, ?_, ?_, ?_⟩
  · intro h; simp [resolveTclName, h]
  · intro h; simp [resolveTclName, h]
  · intro h
    have hmem : resolveTclName filename ∈ dirFiles := by simpa using h
    simp [verify_tcl_file, hmem]
  · intro h
    have hmem : resolveTclName filename ∉ dirFiles := by simpa using h
    refine ⟨strL "Critical Error: The required file '" ++ resolveTclName filename ++
      strL "' was not found in the model directory: '" ++ modelPath ++ strL "'", ?_⟩
    simp [verify_tcl_file, hmem]
  · intro msg hmsg
    simp only [verify_tcl_file] at hmsg
    by_cases hcont : dirFiles.contains (resolveTclName filename) = true
    · rw [if_pos hcont] at hmsg
      cases hmsg
    · rw [if_neg hcont] at hmsg
      have hcon : dirFiles.contains (resolveTclName filename) = false := by
        simpa using hcont
      refine ⟨hcon, strL "Critical Error: The required file '",
        strL "' was not found in the model directory: '", strL "'", ?_⟩
      injection hmsg with h2
      rw [← h2]

/-- C9 witness: on a directory containing `setup.tcl`, `verify_tcl_file`
with the bare name `setup` returns the path to `setup.tcl`; on a
directory without it, it raises an error naming `missing.tcl` and the
directory. -/
theorem verify_tcl_file_spec_witness :
    verify_tcl_file [strL "setup.tcl"] (strL "/models/m1") (strL "setup") =
      Except.ok (strL "/models/m1/setup.tcl") ∧
    (∃ msg, verify_tcl_file [strL "setup.tcl"] (strL "/models/m1") (strL "missing") =
      Except.error msg ∧
      ∃ x y z, msg = x ++ strL "missing.tcl" ++ y ++ strL "/models/m1" ++ z) := by
  constructor
  · have h := (verify_tcl_file_spec [strL "setup.tcl"] (strL "/models/m1")
      (strL "setup")).2.2.1 (by decide)
    rw [h]
    rfl
  · rcases (verify_tcl_file_spec [strL "setup.tcl"] (strL "/models/m1")
      (strL "missing")).2.2.2.1 (by decide) with ⟨msg, hmsg⟩
    refine ⟨msg, hmsg, ?_⟩
    rcases (verify_tcl_file_spec [strL "setup.tcl"] (strL "/models/m1")
      (strL "missing")).2.2.2.2 msg hmsg with ⟨_, x, y, z, hxyz⟩
    exact ⟨x, y, z, by rw [hxyz]; rfl⟩

end TclMaster
